import Mathlib

/-!
Verification of the `releasing` tool (`go/tools/releasing/cmd`): a shallow
embedding of the manifest-rewrite, verify, prerelease and tag workflows,
with theorems settling the specification's claims about them.

Strings are modelled as `List Char` where character-level matching matters
(the version-rewrite regex, semver parsing) and as `String` elsewhere.
External processes (`git`, `make`) are modelled as environment parameters:
a function giving each query's outcome.
-/

namespace Releasing

/-! ## Model of the version-rewrite regex (`prerelease.go`, `updateGoModVersions`)

The Go code builds, for each bumped module path, the regular expression

  `filePathToRegex(modPath) + " v[0-9]*\.[0-9]*\.[0-9]"`

where `filePathToRegex` escapes `/` and `.`, so the module path is matched
literally, followed by a space, a `v`, two digit runs separated by dots, a
dot and one final digit.  `regexp.ReplaceAll` replaces each leftmost
non-overlapping match with `modPath + " " + newVersion`.  Because the two
digit runs are immediately followed by a forced `.` and the pattern ends in
a single digit, matching at a given position is deterministic, so the whole
`ReplaceAll` is faithfully modelled by a left-to-right scan. -/

/-- Consume an expected single character at the head of the input. -/
def expectChar (c : Char) : List Char → Option (List Char)
  | [] => none
  | x :: r => if x = c then some r else none

/-- Match the version part of the pattern, `v[0-9]*\.[0-9]*\.[0-9]`,
at the head of the input; return the rest of the input after the match. -/
def matchVer (s : List Char) : Option (List Char) :=
  match expectChar 'v' s with
  | none => none
  | some s1 =>
    match expectChar '.' (s1.dropWhile Char.isDigit) with
    | none => none
    | some s3 =>
      match expectChar '.' (s3.dropWhile Char.isDigit) with
      | none => none
      | some s5 =>
        match s5 with
        | [] => none
        | d :: r => if d.isDigit then some r else none

/-- Consume a literal string (the escaped module path) at the head of the input. -/
def dropLit : List Char → List Char → Option (List Char)
  | [], s => some s
  | _ :: _, [] => none
  | c :: cs, x :: xs => if x = c then dropLit cs xs else none

/-- Match the whole pattern `<modPath> v[0-9]*\.[0-9]*\.[0-9]` at the head
of the input. -/
def matchPat (modPath : List Char) (s : List Char) : Option (List Char) :=
  match dropLit modPath s with
  | none => none
  | some r =>
    match expectChar ' ' r with
    | none => none
    | some r2 => matchVer r2

theorem expectChar_eq_some {c : Char} {s r : List Char}
    (h : expectChar c s = some r) : s = c :: r := by
  cases s with
  | nil => simp [expectChar] at h
  | cons x xs =>
    simp only [expectChar] at h
    split at h
    · rename_i hx; cases h; subst hx; rfl
    · cases h

theorem dropLit_eq_some {m s r : List Char}
    (h : dropLit m s = some r) : s = m ++ r := by
  induction m generalizing s with
  | nil => cases h; rfl
  | cons c cs ih =>
    cases s with
    | nil => simp [dropLit] at h
    | cons x xs =>
      simp only [dropLit] at h
      split at h
      · rename_i hx; subst hx; simpa using ih h
      · cases h

theorem matchVer_length {s r : List Char}
    (h : matchVer s = some r) : r.length < s.length := by
  unfold matchVer at h
  cases h1 : expectChar 'v' s with
  | none => simp [h1] at h
  | some s1 =>
    simp only [h1] at h
    cases h2 : expectChar '.' (s1.dropWhile Char.isDigit) with
    | none => simp [h2] at h
    | some s3 =>
      simp only [h2] at h
      cases h3 : expectChar '.' (s3.dropWhile Char.isDigit) with
      | none => simp [h3] at h
      | some s5 =>
        simp only [h3] at h
        cases s5 with
        | nil => cases h
        | cons d r5 =>
          simp only at h
          split at h
          · cases h
            have e1 := expectChar_eq_some h1
            have e2 := expectChar_eq_some h2
            have e3 := expectChar_eq_some h3
            have l1 : s1.length < s.length := by rw [e1]; simp
            have l2 : (s1.dropWhile Char.isDigit).length ≤ s1.length :=
              (List.dropWhile_sublist _).length_le
            have l3 : s3.length < (s1.dropWhile Char.isDigit).length := by
              rw [e2]; simp
            have l4 : (s3.dropWhile Char.isDigit).length ≤ s3.length :=
              (List.dropWhile_sublist _).length_le
            have l5 : (d :: r).length ≤ (s3.dropWhile Char.isDigit).length := by
              rw [e3]; simp
            simp only [List.length_cons] at l5
            omega
          · cases h

theorem matchPat_length {m s r : List Char}
    (h : matchPat m s = some r) : r.length < s.length := by
  unfold matchPat at h
  cases h1 : dropLit m s with
  | none => simp [h1] at h
  | some r1 =>
    simp only [h1] at h
    cases h2 : expectChar ' ' r1 with
    | none => simp [h2] at h
    | some r2 =>
      simp only [h2] at h
      have e1 := dropLit_eq_some h1
      have e2 := expectChar_eq_some h2
      have l3 := matchVer_length h
      have l1 : r1.length ≤ s.length := by rw [e1]; simp
      have l2 : r2.length < r1.length := by rw [e2]; simp
      omega

theorem matchPat_eq_some {m s r : List Char} (h : matchPat m s = some r) :
    ∃ v, s = m ++ ' ' :: v ∧ matchVer v = some r := by
  unfold matchPat at h
  cases h1 : dropLit m s with
  | none => simp [h1] at h
  | some r1 =>
    simp only [h1] at h
    cases h2 : expectChar ' ' r1 with
    | none => simp [h2] at h
    | some r2 =>
      simp only [h2] at h
      exact ⟨r2, by rw [dropLit_eq_some h1, expectChar_eq_some h2], h⟩

theorem matchPat_nil (m : List Char) : matchPat m [] = none := by
  cases m with
  | nil => rfl
  | cons c cs => rfl

/-- One `regexp.ReplaceAll` pass for a single module path, structured on
explicit fuel so that it is structurally recursive (the fuel is always
sufficient: each match consumes at least one character). -/
def replaceAllAux (modPath newVer : List Char) : Nat → List Char → List Char
  | 0, s => s
  | fuel + 1, s =>
    match matchPat modPath s with
    | some rest => modPath ++ ' ' :: newVer ++ replaceAllAux modPath newVer fuel rest
    | none =>
      match s with
      | [] => []
      | c :: s' => c :: replaceAllAux modPath newVer fuel s'

/-- `r.ReplaceAll(content, modPath + " " + newVersion)` for the pattern of
one bumped module path (`prerelease.go:268-277`). -/
def replaceAllVersion (modPath newVer s : List Char) : List Char :=
  replaceAllAux modPath newVer (s.length + 1) s

theorem replaceAllAux_fuel_irrel (modPath newVer : List Char) :
    ∀ n m s, s.length < n → s.length < m →
      replaceAllAux modPath newVer n s = replaceAllAux modPath newVer m s := by
  intro n
  induction n with
  | zero => intro m s h _; omega
  | succ n ih =>
    intro m s hn hm
    cases m with
    | zero => omega
    | succ m =>
      simp only [replaceAllAux]
      cases h : matchPat modPath s with
      | some rest =>
        have := matchPat_length h
        show modPath ++ ' ' :: newVer ++ replaceAllAux modPath newVer n rest =
          modPath ++ ' ' :: newVer ++ replaceAllAux modPath newVer m rest
        rw [ih m rest (by omega) (by omega)]
      | none =>
        cases s with
        | nil => rfl
        | cons c s' =>
          simp only [List.length_cons] at hn hm
          show c :: replaceAllAux modPath newVer n s' = c :: replaceAllAux modPath newVer m s'
          rw [ih m s' (by omega) (by omega)]

theorem replaceAllAux_succ (modPath newVer : List Char) (fuel : Nat) (s : List Char) :
    replaceAllAux modPath newVer (fuel + 1) s =
      match matchPat modPath s with
      | some rest => modPath ++ ' ' :: newVer ++ replaceAllAux modPath newVer fuel rest
      | none =>
        match s with
        | [] => []
        | c :: s' => c :: replaceAllAux modPath newVer fuel s' := rfl

theorem replaceAllVersion_eq_match (modPath newVer rest : List Char) (s : List Char)
    (h : matchPat modPath s = some rest) :
    replaceAllVersion modPath newVer s =
      modPath ++ ' ' :: newVer ++ replaceAllVersion modPath newVer rest := by
  have hl := matchPat_length h
  unfold replaceAllVersion
  rw [replaceAllAux_succ, h]
  show modPath ++ ' ' :: newVer ++ replaceAllAux modPath newVer s.length rest = _
  rw [replaceAllAux_fuel_irrel modPath newVer s.length (rest.length + 1) rest
    (by omega) (by omega)]

theorem replaceAllVersion_eq_cons (modPath newVer : List Char) (c : Char) (s' : List Char)
    (h : matchPat modPath (c :: s') = none) :
    replaceAllVersion modPath newVer (c :: s') =
      c :: replaceAllVersion modPath newVer s' := by
  unfold replaceAllVersion
  rw [replaceAllAux_succ, h]
  rfl

theorem replaceAllVersion_nil (modPath newVer : List Char) :
    replaceAllVersion modPath newVer [] = [] := by
  unfold replaceAllVersion
  rw [replaceAllAux_succ, matchPat_nil]

/-- `updateGoModVersions` (`prerelease.go:262-284`): for each bumped module
path in order, replace all matches of its version pattern in the manifest
content.  (Reading and writing the file back is modelled by taking and
returning the content.) -/
def updateGoModVersions (modPaths : List (List Char)) (newVersion : List Char)
    (content : List Char) : List Char :=
  modPaths.foldl (fun acc mp => replaceAllVersion mp newVersion acc) content


/-! ### Facts about matching against the replacement text

The replacement written by the code is `modPath + " " + newVersion`.  When
`newVersion` itself has the exact shape of the matched version pattern
(`v`, digits, `.`, digits, `.`, one final digit), re-matching at a
replacement site consumes exactly the replacement, whatever text follows. -/

theorem expectChar_self (c : Char) (r : List Char) : expectChar c (c :: r) = some r := by
  simp [expectChar]

theorem dropLit_append_self (m r : List Char) : dropLit m (m ++ r) = some r := by
  induction m with
  | nil => rfl
  | cons c cs ih => simp [dropLit, ih]

theorem dropWhile_all_digits (A X : List Char) (hA : ∀ a ∈ A, a.isDigit = true) :
    (A ++ X).dropWhile Char.isDigit = X.dropWhile Char.isDigit := by
  induction A with
  | nil => rfl
  | cons a A ih =>
    have ha : a.isDigit = true := hA a (List.mem_cons_self a A)
    simp only [List.cons_append, List.dropWhile_cons, ha, if_true]
    exact ih fun x hx => hA x (List.mem_cons_of_mem a hx)

theorem matchVer_newVer (A B : List Char) (c : Char) (t : List Char)
    (hA : ∀ a ∈ A, a.isDigit = true) (hB : ∀ b ∈ B, b.isDigit = true)
    (hc : c.isDigit = true) :
    matchVer (('v' :: A ++ '.' :: B ++ ['.', c]) ++ t) = some t := by
  have e1 : ('v' :: A ++ '.' :: B ++ ['.', c]) ++ t =
      'v' :: (A ++ '.' :: (B ++ '.' :: c :: t)) := by simp
  rw [e1]
  have e2 : (A ++ '.' :: (B ++ '.' :: c :: t)).dropWhile Char.isDigit =
      '.' :: (B ++ '.' :: c :: t) := by
    rw [dropWhile_all_digits A _ hA, List.dropWhile_cons]
    simp
  have e3 : (B ++ '.' :: c :: t).dropWhile Char.isDigit = '.' :: c :: t := by
    rw [dropWhile_all_digits B _ hB, List.dropWhile_cons]
    simp
  simp only [matchVer, expectChar_self, e2, e3, hc, if_true]

theorem matchPat_repl (modPath A B : List Char) (c : Char) (t : List Char)
    (hA : ∀ a ∈ A, a.isDigit = true) (hB : ∀ b ∈ B, b.isDigit = true)
    (hc : c.isDigit = true) :
    matchPat modPath (modPath ++ ' ' :: ('v' :: A ++ '.' :: B ++ ['.', c]) ++ t) = some t := by
  have e : modPath ++ ' ' :: ('v' :: A ++ '.' :: B ++ ['.', c]) ++ t =
      modPath ++ (' ' :: (('v' :: A ++ '.' :: B ++ ['.', c]) ++ t)) := by simp
  rw [e]
  simp only [matchPat, dropLit_append_self, expectChar_self]
  exact matchVer_newVer A B c t hA hB hc

/-! ### Uniformity of matching across a space marker

A match attempt can cross a space only through the literal `" v"` of its own
pattern, so when the module path itself contains no space, the outcome of a
match attempt at a fixed position is unchanged by rewriting anything strictly
beyond the next space (provided that space is not exactly at the end of the
literal part).  These lemmas make that precise. -/

theorem expectChar_space_uniform (ch : Char) (hch : ch ≠ ' ') (W : List Char) :
    (∀ T : List Char, expectChar ch (W ++ ' ' :: T) = none) ∨
    (∃ W', W = ch :: W' ∧ ∀ T : List Char, expectChar ch (W ++ ' ' :: T) = some (W' ++ ' ' :: T)) := by
  cases W with
  | nil =>
    left
    intro T
    have hne : ¬ (' ' = ch) := fun h => hch h.symm
    simp only [List.nil_append, expectChar, if_neg hne]
  | cons w W' =>
    by_cases hw : w = ch
    · subst hw
      right
      exact ⟨W', rfl, fun T => by simp [expectChar]⟩
    · left
      intro T
      simp [expectChar, hw]

theorem dropWhile_digit_append_space (W T : List Char) :
    (W ++ ' ' :: T).dropWhile Char.isDigit = W.dropWhile Char.isDigit ++ ' ' :: T := by
  induction W with
  | nil =>
    simp only [List.nil_append, List.dropWhile_cons]
    simp
  | cons w W ih =>
    by_cases hw : w.isDigit
    · simp only [List.cons_append, List.dropWhile_cons, hw, if_true, ih]
    · simp only [List.cons_append, List.dropWhile_cons, hw]
      simp

theorem matchVer_space_uniform (W : List Char) :
    (∀ T : List Char, matchVer (W ++ ' ' :: T) = none) ∨
    (∃ D, ∀ T : List Char, matchVer (W ++ ' ' :: T) = some (D ++ ' ' :: T)) := by
  rcases expectChar_space_uniform 'v' (by decide) W with h1 | ⟨W1, hW1, h1⟩
  · left
    intro T
    simp only [matchVer, h1 T]
  · rcases expectChar_space_uniform '.' (by decide) (W1.dropWhile Char.isDigit) with
      h2 | ⟨W3, hW3, h2⟩
    · left
      intro T
      simp only [matchVer, h1 T, dropWhile_digit_append_space, h2 T]
    · rcases expectChar_space_uniform '.' (by decide) (W3.dropWhile Char.isDigit) with
        h3 | ⟨W5, hW5, h3⟩
      · left
        intro T
        simp only [matchVer, h1 T, dropWhile_digit_append_space, h2 T, h3 T]
      · cases W5 with
        | nil =>
          left
          intro T
          simp only [matchVer, h1 T, dropWhile_digit_append_space, h2 T, h3 T,
            List.nil_append]
          rfl
        | cons d W6 =>
          by_cases hd : d.isDigit
          · right
            refine ⟨W6, fun T => ?_⟩
            simp only [matchVer, h1 T, dropWhile_digit_append_space, h2 T, h3 T,
              List.cons_append]
            simp [hd]
          · left
            intro T
            simp only [matchVer, h1 T, dropWhile_digit_append_space, h2 T, h3 T,
              List.cons_append]
            simp [hd]

theorem dropLit_space_uniform (modPath : List Char) :
    ' ' ∉ modPath → ∀ W : List Char,
      (∀ T : List Char, dropLit modPath (W ++ ' ' :: T) = none) ∨
      (∃ D, W = modPath ++ D ∧
        ∀ T : List Char, dropLit modPath (W ++ ' ' :: T) = some (D ++ ' ' :: T)) := by
  induction modPath with
  | nil =>
    intro _ W
    right
    exact ⟨W, rfl, fun T => rfl⟩
  | cons c cs ih =>
    intro hsp W
    have hc : c ≠ ' ' := fun h => hsp (h ▸ List.mem_cons_self c cs)
    have hsp' : ' ' ∉ cs := fun h => hsp (List.mem_cons_of_mem c h)
    cases W with
    | nil =>
      left
      intro T
      have hne : ¬ (' ' = c) := fun h => hc h.symm
      simp only [List.nil_append, dropLit, if_neg hne]
    | cons w W' =>
      by_cases hw : w = c
      · subst hw
        rcases ih hsp' W' with h | ⟨D, hD, h⟩
        · left
          intro T
          simp only [List.cons_append, dropLit, if_pos rfl]
          exact h T
        · right
          refine ⟨D, by rw [hD]; rfl, fun T => ?_⟩
          simp only [List.cons_append, dropLit, if_pos rfl]
          exact h T
      · left
        intro T
        simp only [List.cons_append, dropLit, if_neg hw]

theorem matchPat_space_uniform (modPath : List Char) (hsp : ' ' ∉ modPath)
    (W : List Char) (hlen : modPath.length < W.length) :
    (∀ T : List Char, matchPat modPath (W ++ ' ' :: T) = none) ∨
    (∃ D, ∀ T : List Char, matchPat modPath (W ++ ' ' :: T) = some (D ++ ' ' :: T)) := by
  rcases dropLit_space_uniform modPath hsp W with h | ⟨D, hD, h⟩
  · left
    intro T
    simp only [matchPat, h T]
  · cases D with
    | nil =>
      exfalso
      rw [hD] at hlen
      simp at hlen
    | cons d D' =>
      by_cases hd : d = ' '
      · subst hd
        rcases matchVer_space_uniform D' with h2 | ⟨D2, h2⟩
        · left
          intro T
          simp only [matchPat, h T, List.cons_append, expectChar, if_pos rfl]
          exact h2 T
        · right
          refine ⟨D2, fun T => ?_⟩
          simp only [matchPat, h T, List.cons_append, expectChar, if_pos rfl]
          exact h2 T
      · left
        intro T
        simp only [matchPat, h T, List.cons_append, expectChar, if_neg hd]


/-! ### Structure of a rewritten string, and idempotence for one module path -/

/-- Any output of the rewrite pass is either the unchanged input or splits as
`U ++ modPath ++ ' ' :: V'` with the input splitting as `U ++ modPath ++ ' ' :: V`
at the same position (the position of the first match). -/
theorem replaceAllVersion_decomp (modPath newVer : List Char) :
    ∀ n s, List.length s ≤ n →
      replaceAllVersion modPath newVer s = s ∨
      ∃ U V V', s = U ++ modPath ++ ' ' :: V ∧
        replaceAllVersion modPath newVer s = U ++ modPath ++ ' ' :: V' := by
  intro n
  induction n with
  | zero =>
    intro s hs
    have : s = [] := List.length_eq_zero.mp (Nat.le_zero.mp hs)
    subst this
    left
    exact replaceAllVersion_nil modPath newVer
  | succ n ih =>
    intro s hs
    cases h : matchPat modPath s with
    | some rest =>
      rcases matchPat_eq_some h with ⟨v, hv, _⟩
      right
      refine ⟨[], v, newVer ++ replaceAllVersion modPath newVer rest, by simpa using hv, ?_⟩
      rw [replaceAllVersion_eq_match modPath newVer rest s h]
      simp
    | none =>
      cases s with
      | nil =>
        left
        exact replaceAllVersion_nil modPath newVer
      | cons c s' =>
        rw [replaceAllVersion_eq_cons modPath newVer c s' h]
        have hs' : List.length s' ≤ n := by
          simp only [List.length_cons] at hs
          omega
        rcases ih s' hs' with he | ⟨U, V, V', hsV, hpV⟩
        · left
          rw [he]
        · right
          refine ⟨c :: U, V, V', by rw [hsV]; simp, by rw [hpV]; simp⟩

/-- If no match starts at the head of `ch :: s`, then no match starts at the
head of `ch :: (rewritten s)` either: the rewrite changes `s` only from its
first match position onwards, both strings agree up to (and one character
beyond) the space of that match, and a match attempt cannot cross a space
except through the `" v"` of its own pattern (impossible here, since the
attempt starts at least one character earlier). Needs the module path to
contain no space, which is true of any Go module path. -/
theorem matchPat_none_pass (modPath newVer : List Char) (hsp : ' ' ∉ modPath)
    (ch : Char) (s : List Char)
    (h : matchPat modPath (ch :: s) = none) :
    matchPat modPath (ch :: replaceAllVersion modPath newVer s) = none := by
  rcases replaceAllVersion_decomp modPath newVer s.length s (Nat.le_refl _) with he | ⟨U, V, V', hsV, hpV⟩
  · rw [he]
    exact h
  · rw [hpV]
    have hlen : modPath.length < (ch :: (U ++ modPath)).length := by
      simp [List.length_cons, List.length_append]
      omega
    rcases matchPat_space_uniform modPath hsp (ch :: (U ++ modPath)) hlen with hu | ⟨D, hu⟩
    · have huV' := hu V'
      have e : (ch :: (U ++ modPath)) ++ ' ' :: V' = ch :: (U ++ modPath ++ ' ' :: V') := by
        simp
      rw [e] at huV'
      exact huV'
    · exfalso
      have huV := hu V
      have e : (ch :: (U ++ modPath)) ++ ' ' :: V = ch :: (U ++ modPath ++ ' ' :: V) := by
        simp
      rw [e] at huV
      rw [hsV] at h
      rw [h] at huV
      cases huV

/-- Idempotence of the rewrite pass for one module path, when the new version
has exactly the shape of the version pattern (`v` digits `.` digits `.` one
digit, no suffix). -/
theorem replaceAllVersion_idem (modPath A B : List Char) (c : Char)
    (hsp : ' ' ∉ modPath) (hA : ∀ a ∈ A, a.isDigit = true)
    (hB : ∀ b ∈ B, b.isDigit = true) (hc : c.isDigit = true) :
    ∀ n s, List.length s ≤ n →
      replaceAllVersion modPath ('v' :: A ++ '.' :: B ++ ['.', c])
          (replaceAllVersion modPath ('v' :: A ++ '.' :: B ++ ['.', c]) s) =
        replaceAllVersion modPath ('v' :: A ++ '.' :: B ++ ['.', c]) s := by
  intro n
  induction n with
  | zero =>
    intro s hs
    have : s = [] := List.length_eq_zero.mp (Nat.le_zero.mp hs)
    subst this
    rw [replaceAllVersion_nil, replaceAllVersion_nil]
  | succ n ih =>
    intro s hs
    cases h : matchPat modPath s with
    | some rest =>
      have hrl := matchPat_length h
      rw [replaceAllVersion_eq_match modPath _ rest s h]
      rw [replaceAllVersion_eq_match modPath _
        (replaceAllVersion modPath ('v' :: A ++ '.' :: B ++ ['.', c]) rest) _
        (matchPat_repl modPath A B c _ hA hB hc)]
      rw [ih rest (by omega)]
    | none =>
      cases s with
      | nil => rw [replaceAllVersion_nil, replaceAllVersion_nil]
      | cons ch s' =>
        rw [replaceAllVersion_eq_cons modPath _ ch s' h]
        rw [replaceAllVersion_eq_cons modPath _ ch _ (matchPat_none_pass modPath _ hsp ch s' h)]
        have hs' : List.length s' ≤ n := by
          simp only [List.length_cons] at hs
          omega
        rw [ih s' hs']


/-! ### Occurrence predicate and the frame property of the rewrite -/

/-- Whether the pattern `modPath v<digits>.<digits>.<digit>` matches anywhere
in `s` (at any start position). -/
def containsPat (modPath : List Char) (s : List Char) : Bool :=
  s.tails.any (fun t => (matchPat modPath t).isSome)

theorem containsPat_cons_false {modPath : List Char} {c : Char} {s : List Char}
    (h : containsPat modPath (c :: s) = false) :
    matchPat modPath (c :: s) = none ∧ containsPat modPath s = false := by
  unfold containsPat at h ⊢
  rw [List.tails_cons] at h
  simp only [List.any_cons, Bool.or_eq_false_iff] at h
  exact ⟨Option.not_isSome_iff_eq_none.mp (by simp [h.1]), h.2⟩

/-- A string in which the pattern of `modPath` occurs nowhere is left
byte-for-byte unchanged by the rewrite pass. -/
theorem replaceAllVersion_no_occurrence (modPath newVer : List Char) :
    ∀ s, containsPat modPath s = false → replaceAllVersion modPath newVer s = s := by
  intro s
  induction s with
  | nil => intro _; exact replaceAllVersion_nil modPath newVer
  | cons ch s' ih =>
    intro h
    rcases containsPat_cons_false h with ⟨hm, hrest⟩
    rw [replaceAllVersion_eq_cons modPath newVer ch s' hm, ih hrest]


/-! ### Claims C2 and C3: idempotence and frame of the manifest rewrite -/

/-- C2, counterexample: the manifest rewrite is not idempotent for every new
target version.  The replaced pattern ends in a single digit
(`v[0-9]*\.[0-9]*\.[0-9]`), so when the new version has a multi-digit patch
component, the rewritten text `m v1.3.10` matches again as `m v1.3.1` with a
trailing `0`, and a second run rewrites the file once more
(`m v1.2.3` becomes `m v1.3.10` and then `m v1.3.100`). -/
theorem updateGoModVersions_not_idempotent :
    updateGoModVersions ["m".toList] "v1.3.10".toList
        (updateGoModVersions ["m".toList] "v1.3.10".toList "m v1.2.3".toList) ≠
      updateGoModVersions ["m".toList] "v1.3.10".toList "m v1.2.3".toList := by
  decide

/-- C2, amended: for a single bumped module path containing no space, the
manifest rewrite is idempotent provided the new version string has exactly
the shape of the replaced pattern, `v` digits `.` digits `.` single digit
(in particular: single-digit patch component and no pre-release or build
suffix).  With a new version outside this shape, or with several bumped
paths whose replacements can create new matches for one another, a second
run can rewrite the file further. -/
theorem updateGoModVersions_idempotent_single (modPath A B : List Char) (c : Char)
    (content : List Char) (hsp : ' ' ∉ modPath)
    (hA : ∀ a ∈ A, a.isDigit = true) (hB : ∀ b ∈ B, b.isDigit = true)
    (hc : c.isDigit = true) :
    updateGoModVersions [modPath] ('v' :: A ++ '.' :: B ++ ['.', c])
        (updateGoModVersions [modPath] ('v' :: A ++ '.' :: B ++ ['.', c]) content) =
      updateGoModVersions [modPath] ('v' :: A ++ '.' :: B ++ ['.', c]) content := by
  simp only [updateGoModVersions, List.foldl_cons, List.foldl_nil]
  exact replaceAllVersion_idem modPath A B c hsp hA hB hc content.length content (Nat.le_refl _)

/-- Witness for the amended C2 theorem at a concrete manifest. -/
theorem updateGoModVersions_idempotent_single_witness :
    updateGoModVersions ["m".toList] ('v' :: ['1'] ++ '.' :: ['3'] ++ ['.', '0'])
        (updateGoModVersions ["m".toList] ('v' :: ['1'] ++ '.' :: ['3'] ++ ['.', '0'])
          "m v1.2.3".toList) =
      updateGoModVersions ["m".toList] ('v' :: ['1'] ++ '.' :: ['3'] ++ ['.', '0'])
        "m v1.2.3".toList :=
  updateGoModVersions_idempotent_single "m".toList ['1'] ['3'] '0' "m v1.2.3".toList
    (by decide) (by decide) (by decide) (by decide)

/-- C3, counterexample: the rewrite matches the bumped module path as a
substring, not as a whole declared path.  With bumped path `b`, the
requirement line of the distinct module `a/b` (whose path merely ends in
`b`) contains the substring `b v1.2.3`, so the line is rewritten: the claim
that such lines are left byte-for-byte unchanged is false. -/
theorem updateGoModVersions_changes_unrelated_line :
    updateGoModVersions ["b".toList] "v2.0.0".toList "a/b v1.2.3".toList ≠
      "a/b v1.2.3".toList := by
  decide

/-- C3, amended: the rewrite can change a manifest only at occurrences of a
bumped module path followed by a space and a version literal
(`<path> v<digits>.<digits>.<digit>` as a substring, at any position — so a
module whose path ends with a bumped path is also rewritten); any content in
which no bumped path's pattern occurs anywhere is left byte-for-byte
unchanged.  In particular a line whose module path merely has a bumped path
as a strict prefix (such as `b/c` for bumped path `b`) never matches and is
untouched. -/
theorem updateGoModVersions_frame (modPaths : List (List Char))
    (newVersion content : List Char)
    (h : ∀ mp ∈ modPaths, containsPat mp content = false) :
    updateGoModVersions modPaths newVersion content = content := by
  induction modPaths with
  | nil => rfl
  | cons mp rest ih =>
    have h1 : containsPat mp content = false := h mp (List.mem_cons_self mp rest)
    unfold updateGoModVersions
    rw [List.foldl_cons, replaceAllVersion_no_occurrence mp newVersion content h1]
    exact ih fun q hq => h q (List.mem_cons_of_mem mp hq)

/-- Witness for the amended C3 theorem: with bumped path `b`, the line of
module `b/c` (bumped path as a strict prefix) is unchanged. -/
theorem updateGoModVersions_frame_witness :
    updateGoModVersions ["b".toList] "v2.0.0".toList "b/c v1.2.3".toList =
      "b/c v1.2.3".toList :=
  updateGoModVersions_frame ["b".toList] "v2.0.0".toList "b/c v1.2.3".toList (by decide)



/-! ## Model of `golang.org/x/mod/semver` (external dependency of `verify.go`)

`verify.go` calls `semver.IsValid`, `semver.Major` and (through the missing
`tools` package) a stability predicate.  The parser below mirrors
`golang.org/x/mod/semver.parse`: a leading `v`, then
`major[.minor[.patch[-prerelease][+build]]]`, decimal components with no
leading zeros, dot-separated alphanumeric/hyphen identifiers in the
pre-release (numeric ones without leading zeros) and build parts. -/

/-- `semver.parseInt`: a leading digit run with no leading zero (unless the
run is exactly `0`); returns the run and the rest. -/
def parseIntSV : List Char → Option (List Char × List Char)
  | [] => none
  | c :: rest =>
    if c.isDigit then
      let t := (c :: rest).takeWhile Char.isDigit
      let r := (c :: rest).dropWhile Char.isDigit
      if c = '0' ∧ t.length ≠ 1 then none else some (t, r)
    else none

/-- `semver.isIdentChar`: ASCII letters, digits and hyphen. -/
def isIdentChar (c : Char) : Bool := c.isAlpha || c.isDigit || c = '-'

/-- `semver.isBadNum`: an all-digit identifier longer than one character
with a leading zero. -/
def isBadNum (v : List Char) : Bool :=
  v.all Char.isDigit && decide (1 < v.length) && (v.head? == some '0')

/-- `semver.parsePrerelease`: a hyphen followed by dot-separated non-empty
identifiers (numeric ones must not have leading zeros), stopping at `+`. -/
def parsePrerelease : List Char → Option (List Char × List Char)
  | '-' :: v1 =>
    let body := v1.takeWhile (fun ch => ch != '+')
    let rest := v1.dropWhile (fun ch => ch != '+')
    if body.all (fun ch => isIdentChar ch || ch == '.') &&
        (body.splitOn '.').all (fun seg => !seg.isEmpty && !isBadNum seg) then
      some ('-' :: body, rest)
    else none
  | _ => none

/-- `semver.parseBuild`: a plus sign followed by dot-separated non-empty
identifiers, running to the end of the string. -/
def parseBuild : List Char → Option (List Char × List Char)
  | '+' :: v1 =>
    if v1.all (fun ch => isIdentChar ch || ch == '.') &&
        (v1.splitOn '.').all (fun seg => !seg.isEmpty) then
      some ('+' :: v1, [])
    else none
  | _ => none

/-- The components produced by `semver.parse`. -/
structure SemverParsed where
  major : List Char
  minor : List Char
  patch : List Char
  prerelease : List Char
  build : List Char

/-- `semver.parse`. -/
def semverParse (v : List Char) : Option SemverParsed :=
  match v with
  | 'v' :: v1 =>
    match parseIntSV v1 with
    | none => none
    | some (maj, r1) =>
      match r1 with
      | [] => some ⟨maj, ['0'], ['0'], [], []⟩
      | '.' :: r2 =>
        match parseIntSV r2 with
        | none => none
        | some (mnr, r3) =>
          match r3 with
          | [] => some ⟨maj, mnr, ['0'], [], []⟩
          | '.' :: r4 =>
            match parseIntSV r4 with
            | none => none
            | some (pat, r5) =>
              match (match r5 with
                     | '-' :: _ => parsePrerelease r5
                     | _ => some ([], r5)) with
              | none => none
              | some (pre, r6) =>
                match (match r6 with
                       | '+' :: _ => parseBuild r6
                       | _ => some ([], r6)) with
                | none => none
                | some (bld, r7) =>
                  match r7 with
                  | [] => some ⟨maj, mnr, pat, pre, bld⟩
                  | _ :: _ => none
          | _ :: _ => none
      | _ :: _ => none
  | _ => none

/-- `semver.IsValid`. -/
def isValidSemver (v : String) : Bool := (semverParse v.toList).isSome

/-- `semver.Major`: `"v" + major` for a valid version, `""` otherwise. -/
def semverMajor (v : String) : String :=
  match semverParse v.toList with
  | none => ""
  | some p => String.mk ('v' :: p.major)

/-- Modelled from the spec: `tools.IsStableVersion` lives in the
`go.opentelemetry.io/tools` package, which is not under `src/`.  The spec
defines a stable version as "major version > 0, and the version has no
pre-release/build-metadata suffix".  Since `parseIntSV` forbids leading
zeros, major > 0 is exactly major ≠ "0". -/
def isStableVersion (v : String) : Bool :=
  match semverParse v.toList with
  | none => false
  | some p => (p.major != ['0']) && p.prerelease.isEmpty && p.build.isEmpty



/-! ## Data model of `tools.ModuleVersioningInfo`

The `go.opentelemetry.io/tools` package itself is not under `src/`; the shape
of its aggregate is pinned by the spec (section 3) and by every use in
`verify.go` and `prerelease.go`.  Go maps are modelled as association lists;
Go map iteration order is arbitrary, and the properties proved below are
order-independent. -/

/-- An entry of `ModInfoMap`: the containing set's name and that set's version. -/
structure ModuleInfo where
  moduleSetName : String
  version : String
deriving DecidableEq

/-- A named module set: a shared version and the member module paths. -/
structure ModuleSet where
  version : String
  modules : List String
deriving DecidableEq

/-- `tools.ModuleVersioningInfo`: set name to set, module path to info,
module path to manifest file path. -/
structure ModuleVersioningInfo where
  modSetMap : List (String × ModuleSet)
  modInfoMap : List (String × ModuleInfo)
  modPathMap : List (String × String)

/-- Association-list lookup, modelling Go map indexing. -/
def lookupKey {β : Type} (k : String) : List (String × β) → Option β
  | [] => none
  | (a, b) :: rest => if a = k then some b else lookupKey k rest

theorem lookupKey_isSome_iff {β : Type} (k : String) (l : List (String × β)) :
    (lookupKey k l).isSome = true ↔ k ∈ l.map Prod.fst := by
  induction l with
  | nil => simp [lookupKey]
  | cons p rest ih =>
    obtain ⟨a, b⟩ := p
    by_cases ha : a = k
    · subst ha
      simp [lookupKey]
    · simp [lookupKey, ha, ih, Ne.symm ha]

theorem lookupKey_eq_none_iff {β : Type} (k : String) (l : List (String × β)) :
    lookupKey k l = none ↔ k ∉ l.map Prod.fst := by
  rw [← lookupKey_isSome_iff k l]
  cases h : lookupKey k l <;> simp [h]

theorem lookupKey_mem {β : Type} {k : String} {l : List (String × β)} {b : β}
    (h : lookupKey k l = some b) : (k, b) ∈ l := by
  induction l with
  | nil => simp [lookupKey] at h
  | cons p rest ih =>
    obtain ⟨a, b'⟩ := p
    by_cases ha : a = k
    · subst ha
      simp only [lookupKey, if_pos rfl] at h
      cases h
      exact List.mem_cons_self _ _
    · simp only [lookupKey, if_neg ha] at h
      exact List.mem_cons_of_mem _ (ih h)

theorem lookupKey_of_mem_nodup {β : Type} {k : String} {l : List (String × β)} {b : β}
    (hnd : (l.map Prod.fst).Nodup) (h : (k, b) ∈ l) : lookupKey k l = some b := by
  induction l with
  | nil => simp at h
  | cons p rest ih =>
    obtain ⟨a, b'⟩ := p
    simp only [List.map_cons, List.nodup_cons] at hnd
    rcases List.mem_cons.mp h with he | hm
    · cases he
      simp [lookupKey]
    · have hak : a ≠ k := by
        intro he
        subst he
        exact hnd.1 (by simpa using List.mem_map_of_mem Prod.fst hm)
      simp only [lookupKey, if_neg hak]
      exact ih hnd.2 hm

/-! ## The `verify` command (`verify.go`) -/

/-- Errors of the set-completeness check, distinguishing a module found on
disk but in no set from a module declared in a set but absent on disk. -/
inductive ModuleSetError
  | notInAnySet (modPath modFilePath : String)
  | notInRepo (modPath moduleSetName : String)
deriving DecidableEq

/-- `verifyAllModulesInSet` (`verify.go:100-124`): first loop over
`ModPathMap` reporting a module not contained in any module set, then loop
over `ModInfoMap` reporting a module that does not exist in the repo. -/
def verifyAllModulesInSet (modPathMap : List (String × String))
    (modInfoMap : List (String × ModuleInfo)) : Except ModuleSetError Unit :=
  match modPathMap.find? (fun p => (lookupKey p.1 modInfoMap).isNone) with
  | some pair => .error (.notInAnySet pair.1 pair.2)
  | none =>
    match modInfoMap.find? (fun p => (lookupKey p.1 modPathMap).isNone) with
    | some pair => .error (.notInRepo pair.1 pair.2.moduleSetName)
    | none => .ok ()

/-- C6: the set-completeness check succeeds iff the key sets of `ModPathMap`
(modules discovered on disk) and `ModInfoMap` (modules declared in config)
are equal; on failure the error names the offending module and distinguishes
a module on disk that is in no set (`notInAnySet`, with its file path) from
a module declared in a set but absent on disk (`notInRepo`, with its set's
name). -/
theorem verifyAllModulesInSet_spec (modPathMap : List (String × String))
    (modInfoMap : List (String × ModuleInfo)) :
    (verifyAllModulesInSet modPathMap modInfoMap = .ok () ↔
      ((∀ k ∈ modPathMap.map Prod.fst, k ∈ modInfoMap.map Prod.fst) ∧
        (∀ k ∈ modInfoMap.map Prod.fst, k ∈ modPathMap.map Prod.fst))) ∧
    (∀ mp fp, verifyAllModulesInSet modPathMap modInfoMap = .error (.notInAnySet mp fp) →
      (mp, fp) ∈ modPathMap ∧ mp ∉ modInfoMap.map Prod.fst) ∧
    (∀ mp sn, verifyAllModulesInSet modPathMap modInfoMap = .error (.notInRepo mp sn) →
      (∃ mi, (mp, mi) ∈ modInfoMap ∧ mi.moduleSetName = sn) ∧
        mp ∉ modPathMap.map Prod.fst) := by
  unfold verifyAllModulesInSet
  cases h1 : modPathMap.find? (fun p => (lookupKey p.1 modInfoMap).isNone) with
  | some pair =>
    obtain ⟨mp0, fp0⟩ := pair
    have hmem := List.mem_of_find?_eq_some h1
    have hp := List.find?_some h1
    simp only [Option.isNone_iff_eq_none] at hp
    have hnot : mp0 ∉ modInfoMap.map Prod.fst := (lookupKey_eq_none_iff _ _).mp hp
    refine ⟨?_, ?_, ?_⟩
    · constructor
      · intro he
        cases he
      · rintro ⟨hsub, _⟩
        exact absurd (hsub mp0 (List.mem_map_of_mem Prod.fst hmem)) hnot
    · intro mp fp he
      cases he
      exact ⟨hmem, hnot⟩
    · intro mp sn he
      cases he
  | none =>
    have hall1 := List.find?_eq_none.mp h1
    cases h2 : modInfoMap.find? (fun p => (lookupKey p.1 modPathMap).isNone) with
    | some pair =>
      obtain ⟨mp0, mi0⟩ := pair
      have hmem := List.mem_of_find?_eq_some h2
      have hp := List.find?_some h2
      simp only [Option.isNone_iff_eq_none] at hp
      have hnot : mp0 ∉ modPathMap.map Prod.fst := (lookupKey_eq_none_iff _ _).mp hp
      refine ⟨?_, ?_, ?_⟩
      · constructor
        · intro he
          cases he
        · rintro ⟨_, hsub⟩
          exact absurd (hsub mp0 (List.mem_map_of_mem Prod.fst hmem)) hnot
      · intro mp fp he
        cases he
      · intro mp sn he
        cases he
        exact ⟨⟨mi0, hmem, rfl⟩, hnot⟩
    | none =>
      have hall2 := List.find?_eq_none.mp h2
      refine ⟨?_, ?_, ?_⟩
      · constructor
        · intro _
          constructor
          · intro k hk
            rcases List.mem_map.mp hk with ⟨p, hpmem, hpk⟩
            have := hall1 p hpmem
            simp only [Bool.not_eq_true, Option.isNone_iff_eq_none] at this
            have hsome : (lookupKey p.1 modInfoMap).isSome = true := by
              cases hh : lookupKey p.1 modInfoMap with
              | none => exact absurd hh this
              | some _ => rfl
            have := (lookupKey_isSome_iff p.1 modInfoMap).mp hsome
            rwa [hpk] at this
          · intro k hk
            rcases List.mem_map.mp hk with ⟨p, hpmem, hpk⟩
            have := hall2 p hpmem
            simp only [Bool.not_eq_true, Option.isNone_iff_eq_none] at this
            have hsome : (lookupKey p.1 modPathMap).isSome = true := by
              cases hh : lookupKey p.1 modPathMap with
              | none => exact absurd hh this
              | some _ => rfl
            have := (lookupKey_isSome_iff p.1 modPathMap).mp hsome
            rwa [hpk] at this
        · intro _
          rfl
      · intro mp fp he
        cases he
      · intro mp sn he
        cases he

/-- Witness for C6 at concrete maps: equal key sets verify as ok, and a map
pair with an extra on-disk module fails naming it. -/
theorem verifyAllModulesInSet_spec_witness :
    verifyAllModulesInSet [("a", "a/go.mod")] [("a", ⟨"s1", "v1.0.0"⟩)] = .ok () :=
  (verifyAllModulesInSet_spec [("a", "a/go.mod")] [("a", ⟨"s1", "v1.0.0"⟩)]).1.mpr
    (by decide)



/-- Errors of the version-validity check. -/
inductive VersionError
  | invalidVersion (setName version : String)
  | majorCollision (major prevSetName prevVersion setName version : String)
deriving DecidableEq

/-- The loop of `verifyVersions` (`verify.go:127-159`): processing module
sets while tracking `setMajorVersions`, the map from a major version to the
first stable set seen with it; a set with an invalid version fails, a stable
set whose major is already present fails naming both sets (the previous
set's version is re-read from `ModSetMap`, Go's zero value `""` if absent). -/
def verifyVersionsGo (modSetMap : List (String × ModuleSet)) :
    List (String × String) → List (String × ModuleSet) → Except VersionError Unit
  | _, [] => .ok ()
  | acc, (setName, ms) :: rest =>
    if isValidSemver ms.version = false then
      .error (.invalidVersion setName ms.version)
    else if isStableVersion ms.version = true then
      match lookupKey (semverMajor ms.version) acc with
      | some prevName =>
        .error (.majorCollision (semverMajor ms.version) prevName
          (((lookupKey prevName modSetMap).map ModuleSet.version).getD "")
          setName ms.version)
      | none =>
        verifyVersionsGo modSetMap ((semverMajor ms.version, setName) :: acc) rest
    else
      verifyVersionsGo modSetMap acc rest

/-- `verifyVersions` (`verify.go:127-159`), starting from an empty
`setMajorVersions` map. -/
def verifyVersions (modSetMap : List (String × ModuleSet)) : Except VersionError Unit :=
  verifyVersionsGo modSetMap [] modSetMap

theorem verifyVersionsGo_ok_iff (modSetMap : List (String × ModuleSet)) :
    ∀ (l : List (String × ModuleSet)) (acc : List (String × String)),
      (∀ p ∈ l, isValidSemver p.2.version = true) →
      (verifyVersionsGo modSetMap acc l = .ok () ↔
        ((∀ p ∈ l, isStableVersion p.2.version = true →
            semverMajor p.2.version ∉ acc.map Prod.fst) ∧
          l.Pairwise (fun a b => isStableVersion a.2.version = true →
            isStableVersion b.2.version = true →
            semverMajor a.2.version ≠ semverMajor b.2.version))) := by
  intro l
  induction l with
  | nil =>
    intro acc _
    simp [verifyVersionsGo]
  | cons hd rest ih =>
    intro acc hvalid
    obtain ⟨n, ms⟩ := hd
    have hv : isValidSemver ms.version = true := hvalid (n, ms) (List.mem_cons_self _ _)
    have hvrest : ∀ p ∈ rest, isValidSemver p.2.version = true :=
      fun p hp => hvalid p (List.mem_cons_of_mem _ hp)
    by_cases hst : isStableVersion ms.version = true
    · cases hacc : lookupKey (semverMajor ms.version) acc with
      | some prevName =>
        have hmem : semverMajor ms.version ∈ acc.map Prod.fst := by
          rw [← lookupKey_isSome_iff]
          simp [hacc]
        constructor
        · intro he
          simp [verifyVersionsGo, hv, hst, hacc] at he
        · rintro ⟨hfst, _⟩
          exact absurd hmem (hfst (n, ms) (List.mem_cons_self _ _) hst)
      | none =>
        have hstep : verifyVersionsGo modSetMap acc ((n, ms) :: rest) =
            verifyVersionsGo modSetMap ((semverMajor ms.version, n) :: acc) rest := by
          simp [verifyVersionsGo, hv, hst, hacc]
        rw [hstep, ih ((semverMajor ms.version, n) :: acc) hvrest]
        constructor
        · rintro ⟨hfst, hpair⟩
          refine ⟨?_, ?_⟩
          · intro p hp hpst
            rcases List.mem_cons.mp hp with he | hm
            · subst he
              exact (lookupKey_eq_none_iff _ _).mp hacc
            · have := hfst p hm hpst
              simp only [List.map_cons, List.mem_cons] at this
              exact fun hin => this (Or.inr hin)
          · rw [List.pairwise_cons]
            refine ⟨?_, hpair⟩
            intro b hb h1 h2
            have := hfst b hb h2
            simp only [List.map_cons, List.mem_cons] at this
            intro heq
            exact this (Or.inl heq.symm)
        · rintro ⟨hfst, hpair⟩
          rw [List.pairwise_cons] at hpair
          refine ⟨?_, hpair.2⟩
          intro p hp hpst
          simp only [List.map_cons, List.mem_cons]
          rintro (heq | hin)
          · exact hpair.1 p hp hst hpst heq.symm
          · exact hfst p (List.mem_cons_of_mem _ hp) hpst hin
    · have hstep : verifyVersionsGo modSetMap acc ((n, ms) :: rest) =
          verifyVersionsGo modSetMap acc rest := by
        simp [verifyVersionsGo, hv, hst]
      rw [hstep, ih acc hvrest]
      constructor
      · rintro ⟨hfst, hpair⟩
        refine ⟨?_, ?_⟩
        · intro p hp hpst
          rcases List.mem_cons.mp hp with he | hm
          · subst he
            exact absurd hpst hst
          · exact hfst p hm hpst
        · rw [List.pairwise_cons]
          refine ⟨?_, hpair⟩
          intro b hb h1 h2
          exact absurd h1 hst
      · rintro ⟨hfst, hpair⟩
        rw [List.pairwise_cons] at hpair
        exact ⟨fun p hp hpst => hfst p (List.mem_cons_of_mem _ hp) hpst, hpair.2⟩

theorem verifyVersionsGo_ok_valid (modSetMap : List (String × ModuleSet)) :
    ∀ (l : List (String × ModuleSet)) (acc : List (String × String)),
      verifyVersionsGo modSetMap acc l = .ok () →
      ∀ p ∈ l, isValidSemver p.2.version = true := by
  intro l
  induction l with
  | nil => intro acc _ p hp; simp at hp
  | cons hd rest ih =>
    intro acc hok p hp
    obtain ⟨n, ms⟩ := hd
    by_cases hv : isValidSemver ms.version = true
    · rcases List.mem_cons.mp hp with he | hm
      · subst he; exact hv
      · by_cases hst : isStableVersion ms.version = true
        · cases hacc : lookupKey (semverMajor ms.version) acc with
          | some prevName =>
            simp [verifyVersionsGo, hv, hst, hacc] at hok
          | none =>
            have hstep : verifyVersionsGo modSetMap acc ((n, ms) :: rest) =
                verifyVersionsGo modSetMap ((semverMajor ms.version, n) :: acc) rest := by
              simp [verifyVersionsGo, hv, hst, hacc]
            rw [hstep] at hok
            exact ih _ hok p hm
        · have hstep : verifyVersionsGo modSetMap acc ((n, ms) :: rest) =
              verifyVersionsGo modSetMap acc rest := by
            simp [verifyVersionsGo, hv, hst]
          rw [hstep] at hok
          exact ih _ hok p hm
    · have : verifyVersionsGo modSetMap acc ((n, ms) :: rest) =
          .error (.invalidVersion n ms.version) := by
        simp [verifyVersionsGo, hv]
      rw [this] at hok
      cases hok

theorem verifyVersionsGo_collision (modSetMap : List (String × ModuleSet))
    (hnd : (modSetMap.map Prod.fst).Nodup) :
    ∀ (l : List (String × ModuleSet)) (acc : List (String × String)),
      (∀ q ∈ acc, ∃ msq, (q.2, msq) ∈ modSetMap ∧ isStableVersion msq.version = true ∧
        semverMajor msq.version = q.1) →
      (∀ p ∈ l, p ∈ modSetMap) →
      (∀ q ∈ acc, ∀ p ∈ l, q.2 ≠ p.1) →
      (l.map Prod.fst).Nodup →
      ∀ maj pn pv n nv,
        verifyVersionsGo modSetMap acc l = .error (.majorCollision maj pn pv n nv) →
        ∃ msp msn, (pn, msp) ∈ modSetMap ∧ (n, msn) ∈ modSetMap ∧ pn ≠ n ∧
          msp.version = pv ∧ msn.version = nv ∧
          isStableVersion pv = true ∧ isStableVersion nv = true ∧
          semverMajor pv = maj ∧ semverMajor nv = maj := by
  intro l
  induction l with
  | nil =>
    intro acc _ _ _ _ maj pn pv n nv he
    simp [verifyVersionsGo] at he
  | cons hd rest ih =>
    intro acc hacc hsub hdisj hlnd maj pn pv n0 nv he
    obtain ⟨n, ms⟩ := hd
    by_cases hv : isValidSemver ms.version = true
    · by_cases hst : isStableVersion ms.version = true
      · cases hlook : lookupKey (semverMajor ms.version) acc with
        | some prevName =>
          have hstep : verifyVersionsGo modSetMap acc ((n, ms) :: rest) =
              .error (.majorCollision (semverMajor ms.version) prevName
                (((lookupKey prevName modSetMap).map ModuleSet.version).getD "")
                n ms.version) := by
            simp [verifyVersionsGo, hv, hst, hlook]
          rw [hstep] at he
          injection he with he'
          injection he' with e1 e2 e3 e4 e5
          subst e1; subst e2; subst e3; subst e4; subst e5
          have hqacc : (semverMajor ms.version, prevName) ∈ acc := lookupKey_mem hlook
          rcases hacc _ hqacc with ⟨msp, hmspmem, hmspst, hmspmaj⟩
          have hlookms : lookupKey prevName modSetMap = some msp :=
            lookupKey_of_mem_nodup hnd hmspmem
          have hne : prevName ≠ n := hdisj _ hqacc (n, ms) (List.mem_cons_self _ _)
          refine ⟨msp, ms, hmspmem, hsub (n, ms) (List.mem_cons_self _ _), hne,
            ?_, rfl, ?_, hst, ?_, rfl⟩
          · rw [hlookms]; rfl
          · rw [hlookms]; simpa using hmspst
          · rw [hlookms]; simpa using hmspmaj
        | none =>
          have hstep : verifyVersionsGo modSetMap acc ((n, ms) :: rest) =
              verifyVersionsGo modSetMap ((semverMajor ms.version, n) :: acc) rest := by
            simp [verifyVersionsGo, hv, hst, hlook]
          rw [hstep] at he
          simp only [List.map_cons, List.nodup_cons] at hlnd
          refine ih ((semverMajor ms.version, n) :: acc) ?_
            (fun p hp => hsub p (List.mem_cons_of_mem _ hp)) ?_ hlnd.2
            maj pn pv n0 nv he
          · intro q hq
            rcases List.mem_cons.mp hq with rfl | hm
            · exact ⟨ms, hsub (n, ms) (List.mem_cons_self _ _), hst, rfl⟩
            · exact hacc q hm
          · intro q hq p hp
            rcases List.mem_cons.mp hq with rfl | hm
            · intro heq
              have hmm : p.1 ∈ List.map Prod.fst rest := List.mem_map_of_mem Prod.fst hp
              rw [← heq] at hmm
              exact hlnd.1 hmm
            · exact hdisj q hm p (List.mem_cons_of_mem _ hp)
      · have hstep : verifyVersionsGo modSetMap acc ((n, ms) :: rest) =
            verifyVersionsGo modSetMap acc rest := by
          simp [verifyVersionsGo, hv, hst]
        rw [hstep] at he
        simp only [List.map_cons, List.nodup_cons] at hlnd
        exact ih acc hacc (fun p hp => hsub p (List.mem_cons_of_mem _ hp))
          (fun q hq p hp => hdisj q hq p (List.mem_cons_of_mem _ hp)) hlnd.2
          maj pn pv n0 nv he
    · have hstep : verifyVersionsGo modSetMap acc ((n, ms) :: rest) =
          .error (.invalidVersion n ms.version) := by
        simp [verifyVersionsGo, hv]
      rw [hstep] at he
      cases he

/-- C7: given module sets whose names are distinct, (a) when every set's
version is valid semver, the version-validity check succeeds iff no two
distinct stable sets share a major version; (b) any invalid version makes
the check fail; (c) a major-collision error names two distinct sets of the
map, both stable, with their versions, both versions having the reported
major. -/
theorem verifyVersions_spec (modSetMap : List (String × ModuleSet))
    (hnd : (modSetMap.map Prod.fst).Nodup) :
    ((∀ p ∈ modSetMap, isValidSemver p.2.version = true) →
      (verifyVersions modSetMap = .ok () ↔
        modSetMap.Pairwise (fun a b => isStableVersion a.2.version = true →
          isStableVersion b.2.version = true →
          semverMajor a.2.version ≠ semverMajor b.2.version))) ∧
    ((∃ p ∈ modSetMap, isValidSemver p.2.version = false) →
      verifyVersions modSetMap ≠ .ok ()) ∧
    (∀ maj pn pv n nv,
      verifyVersions modSetMap = .error (.majorCollision maj pn pv n nv) →
      ∃ msp msn, (pn, msp) ∈ modSetMap ∧ (n, msn) ∈ modSetMap ∧ pn ≠ n ∧
        msp.version = pv ∧ msn.version = nv ∧
        isStableVersion pv = true ∧ isStableVersion nv = true ∧
        semverMajor pv = maj ∧ semverMajor nv = maj) := by
  refine ⟨?_, ?_, ?_⟩
  · intro hvalid
    rw [verifyVersions, verifyVersionsGo_ok_iff modSetMap modSetMap [] hvalid]
    simp
  · rintro ⟨p, hp, hpv⟩ hok
    have := verifyVersionsGo_ok_valid modSetMap modSetMap [] hok p hp
    rw [this] at hpv
    cases hpv
  · intro maj pn pv n nv he
    exact verifyVersionsGo_collision modSetMap hnd modSetMap []
      (by intro q hq; simp at hq) (fun p hp => hp)
      (by intro q hq; simp at hq) hnd maj pn pv n nv he

/-- Witness for C7 at a concrete map: two stable sets with distinct majors
verify as ok. -/
theorem verifyVersions_spec_witness :
    verifyVersions [("s1", ⟨"v1.0.0", []⟩), ("s2", ⟨"v2.3.0", []⟩)] = .ok () :=
  ((verifyVersions_spec [("s1", ⟨"v1.0.0", []⟩), ("s2", ⟨"v2.3.0", []⟩)]
    (by decide)).1 (by decide)).mpr (by decide)



/-- A `require` entry of a parsed manifest (`modfile.Require`). -/
structure Require where
  path : String
  version : String
deriving DecidableEq

/-- A warning printed by the dependency-stability check: stable module and
its version, unstable tracked dependency and its version. -/
structure DependencyWarning where
  modPath : String
  modVersion : String
  depPath : String
  depVersion : String
deriving DecidableEq

/-- The loop of `verifyDependencies` (`verify.go:162-200`).  For each stable
module, the manifest at `ModPathMap[modPath]` is read with
`ioutil.ReadFile` — the read error is discarded (the code reuses `err` for
the subsequent `modfile.Parse` call), so a failed read leaves `modData`
nil — and parsed with `modfile.Parse`, which succeeds on empty data with no
statements; a parse error is returned immediately.  Otherwise every
`require` dependency that is itself tracked in `ModInfoMap` with an
unstable version yields a warning.  `readFile` and `parse` are the
environment: the filesystem and the external `golang.org/x/mod/modfile`
parser. -/
def verifyDependenciesGo (modInfoMap : List (String × ModuleInfo))
    (modPathMap : List (String × String))
    (readFile : String → Option (List Char))
    (parse : List Char → Except String (List Require)) :
    List (String × ModuleInfo) → List DependencyWarning →
      Except String (List DependencyWarning)
  | [], acc => .ok acc
  | (modPath, modInfo) :: rest, acc =>
    if isStableVersion modInfo.version = true then
      let modFilePath := (lookupKey modPath modPathMap).getD ""
      let modData := (readFile modFilePath).getD []
      match parse modData with
      | .error e => .error e
      | .ok requireDeps =>
        let ws := requireDeps.filterMap fun dep =>
          match lookupKey dep.path modInfoMap with
          | some depModInfo =>
            if isStableVersion depModInfo.version = false then
              some ⟨modPath, modInfo.version, dep.path, depModInfo.version⟩
            else none
          | none => none
        verifyDependenciesGo modInfoMap modPathMap readFile parse rest (acc ++ ws)
    else verifyDependenciesGo modInfoMap modPathMap readFile parse rest acc

/-- `verifyDependencies` (`verify.go:162-200`), iterating over `ModInfoMap`
with no warnings accumulated yet. -/
def verifyDependencies (modInfoMap : List (String × ModuleInfo))
    (modPathMap : List (String × String))
    (readFile : String → Option (List Char))
    (parse : List Char → Except String (List Require)) :
    Except String (List DependencyWarning) :=
  verifyDependenciesGo modInfoMap modPathMap readFile parse modInfoMap []

theorem verifyDependenciesGo_ok_of_parses (modInfoMap : List (String × ModuleInfo))
    (modPathMap : List (String × String)) (readFile : String → Option (List Char))
    (parse : List Char → Except String (List Require)) :
    ∀ (l : List (String × ModuleInfo)) (acc : List DependencyWarning),
      (∀ p ∈ l, isStableVersion p.2.version = true →
        ∃ reqs, parse ((readFile ((lookupKey p.1 modPathMap).getD "")).getD []) = .ok reqs) →
      ∃ ws, verifyDependenciesGo modInfoMap modPathMap readFile parse l acc = .ok ws := by
  intro l
  induction l with
  | nil => intro acc _; exact ⟨acc, rfl⟩
  | cons hd rest ih =>
    intro acc hp
    obtain ⟨mp, mi⟩ := hd
    by_cases hst : isStableVersion mi.version = true
    · rcases hp (mp, mi) (List.mem_cons_self _ _) hst with ⟨reqs, hreqs⟩
      have hstep : verifyDependenciesGo modInfoMap modPathMap readFile parse
          ((mp, mi) :: rest) acc =
          verifyDependenciesGo modInfoMap modPathMap readFile parse rest
            (acc ++ reqs.filterMap fun dep =>
              match lookupKey dep.path modInfoMap with
              | some depModInfo =>
                if isStableVersion depModInfo.version = false then
                  some ⟨mp, mi.version, dep.path, depModInfo.version⟩
                else none
              | none => none) := by
        simp [verifyDependenciesGo, hst, hreqs]
      rw [hstep]
      exact ih _ fun p hq => hp p (List.mem_cons_of_mem _ hq)
    · have hstep : verifyDependenciesGo modInfoMap modPathMap readFile parse
          ((mp, mi) :: rest) acc =
          verifyDependenciesGo modInfoMap modPathMap readFile parse rest acc := by
        simp [verifyDependenciesGo, hst]
      rw [hstep]
      exact ih _ fun p hq => hp p (List.mem_cons_of_mem _ hq)

theorem verifyDependenciesGo_congr (modInfoMap : List (String × ModuleInfo))
    (modPathMap : List (String × String))
    (rf rf' : String → Option (List Char))
    (parse : List Char → Except String (List Require))
    (h : ∀ p, (rf p).getD [] = (rf' p).getD []) :
    ∀ (l : List (String × ModuleInfo)) (acc : List DependencyWarning),
      verifyDependenciesGo modInfoMap modPathMap rf parse l acc =
        verifyDependenciesGo modInfoMap modPathMap rf' parse l acc := by
  intro l
  induction l with
  | nil => intro acc; rfl
  | cons hd rest ih =>
    intro acc
    obtain ⟨mp, mi⟩ := hd
    by_cases hst : isStableVersion mi.version = true
    · simp only [verifyDependenciesGo, hst, if_true, h]
      cases parse ((rf' ((lookupKey mp modPathMap).getD "")).getD []) with
      | error e => rfl
      | ok reqs => exact ih _
    · simp only [verifyDependenciesGo, hst]
      exact ih acc

theorem verifyDependenciesGo_no_warning_for (modInfoMap : List (String × ModuleInfo))
    (modPathMap : List (String × String))
    (readFile : String → Option (List Char))
    (parse : List Char → Except String (List Require)) (m : String)
    (hread : readFile ((lookupKey m modPathMap).getD "") = none)
    (hnil : parse [] = .ok []) :
    ∀ (l : List (String × ModuleInfo)) (acc : List DependencyWarning),
      (∀ w ∈ acc, w.modPath ≠ m) →
      ∀ ws, verifyDependenciesGo modInfoMap modPathMap readFile parse l acc = .ok ws →
        ∀ w ∈ ws, w.modPath ≠ m := by
  intro l
  induction l with
  | nil =>
    intro acc hacc ws hws
    cases hws
    exact hacc
  | cons hd rest ih =>
    intro acc hacc ws hws
    obtain ⟨mp, mi⟩ := hd
    by_cases hst : isStableVersion mi.version = true
    · cases hparse : parse ((readFile ((lookupKey mp modPathMap).getD "")).getD []) with
      | error e =>
        have : verifyDependenciesGo modInfoMap modPathMap readFile parse
            ((mp, mi) :: rest) acc = .error e := by
          simp [verifyDependenciesGo, hst, hparse]
        rw [this] at hws
        cases hws
      | ok reqs =>
        have hstep : verifyDependenciesGo modInfoMap modPathMap readFile parse
            ((mp, mi) :: rest) acc =
            verifyDependenciesGo modInfoMap modPathMap readFile parse rest
              (acc ++ reqs.filterMap fun dep =>
                match lookupKey dep.path modInfoMap with
                | some depModInfo =>
                  if isStableVersion depModInfo.version = false then
                    some ⟨mp, mi.version, dep.path, depModInfo.version⟩
                  else none
                | none => none) := by
          simp [verifyDependenciesGo, hst, hparse]
        rw [hstep] at hws
        by_cases hmp : mp = m
        · subst hmp
          rw [hread] at hparse
          simp only [Option.getD_none] at hparse
          rw [hnil] at hparse
          injection hparse with hreqs
          subst hreqs
          simp only [List.filterMap_nil, List.append_nil] at hws
          exact ih acc hacc ws hws
        · refine ih _ ?_ ws hws
          intro w hw
          rcases List.mem_append.mp hw with hin | hin
          · exact hacc w hin
          · rcases List.mem_filterMap.mp hin with ⟨dep, _, hdep⟩
            cases hlk : lookupKey dep.path modInfoMap with
            | none => simp [hlk] at hdep
            | some depModInfo =>
              simp only [hlk] at hdep
              by_cases hu : isStableVersion depModInfo.version = false
              · rw [if_pos hu] at hdep
                injection hdep with hw'
                rw [← hw']
                exact hmp
              · rw [if_neg hu] at hdep
                cases hdep
    · have hstep : verifyDependenciesGo modInfoMap modPathMap readFile parse
          ((mp, mi) :: rest) acc =
          verifyDependenciesGo modInfoMap modPathMap readFile parse rest acc := by
        simp [verifyDependenciesGo, hst]
      rw [hstep] at hws
      exact ih acc hacc ws hws

/-- C5, counterexample: the dependency check is not failure-free.  A stable
module whose manifest is readable but does not parse makes
`verifyDependencies` return the parse error (`return err` in
`verify.go:173-176`), which the command turns into a fatal non-zero exit. -/
theorem verifyDependencies_can_fail :
    verifyDependencies [("m", ⟨"s1", "v1.0.0"⟩)] [("m", "m/go.mod")]
      (fun _ => some ['x'])
      (fun d => if d.isEmpty then .ok [] else .error "syntax error") =
      .error "syntax error" := rfl

/-- C5 (amended): the stability comparison itself only warns and never
fails; `verifyDependencies` returns ok — whatever the dependency versions
are — whenever every stable module's manifest parses, and in particular when
it cannot be read (nil data parses as an empty file).  However, contrary to
the claim, the check can fail the command: a stable module whose manifest is
read but fails to parse makes it return an error. -/
theorem verifyDependencies_ok_of_parses (modInfoMap : List (String × ModuleInfo))
    (modPathMap : List (String × String))
    (readFile : String → Option (List Char))
    (parse : List Char → Except String (List Require))
    (h : ∀ p ∈ modInfoMap, isStableVersion p.2.version = true →
      ∃ reqs, parse ((readFile ((lookupKey p.1 modPathMap).getD "")).getD []) = .ok reqs) :
    ∃ ws, verifyDependencies modInfoMap modPathMap readFile parse = .ok ws :=
  verifyDependenciesGo_ok_of_parses modInfoMap modPathMap readFile parse modInfoMap [] h

/-- Witness for the amended C5 theorem: a stable module depending on an
unstable tracked module produces an ok result (with a warning), not a
failure. -/
theorem verifyDependencies_ok_of_parses_witness :
    ∃ ws, verifyDependencies [("m", ⟨"s1", "v1.0.0"⟩), ("u", ⟨"s2", "v0.1.0"⟩)]
      [("m", "m/go.mod"), ("u", "u/go.mod")]
      (fun p => if p = "m/go.mod" then some ['d'] else none)
      (fun d => if d.isEmpty then .ok [] else .ok [⟨"u", "v0.1.0"⟩]) = .ok ws :=
  verifyDependencies_ok_of_parses _ _ _ _ (by
    intro p hp hpst
    rcases List.mem_cons.mp hp with rfl | hp'
    · exact ⟨[⟨"u", "v0.1.0"⟩], rfl⟩
    · rcases List.mem_cons.mp hp' with rfl | hp''
      · exact absurd hpst (by decide)
      · cases hp'')

/-- C10: for a stable module `m` whose manifest cannot be read, the read
error is discarded and `m` is treated as having no dependencies: the whole
run is unchanged if `m`'s file is replaced by an empty one, no produced
warning is about `m`, and if every other stable module's manifest parses the
check still reports success. -/
theorem verifyDependencies_read_error_ignored (modInfoMap : List (String × ModuleInfo))
    (modPathMap : List (String × String))
    (readFile : String → Option (List Char))
    (parse : List Char → Except String (List Require)) (m : String) (mi : ModuleInfo)
    (_hm : (m, mi) ∈ modInfoMap) (_hst : isStableVersion mi.version = true)
    (hread : readFile ((lookupKey m modPathMap).getD "") = none)
    (hnil : parse [] = .ok []) :
    (verifyDependencies modInfoMap modPathMap readFile parse =
      verifyDependencies modInfoMap modPathMap
        (fun p => if p = (lookupKey m modPathMap).getD "" then some [] else readFile p)
        parse) ∧
    (∀ ws, verifyDependencies modInfoMap modPathMap readFile parse = .ok ws →
      ∀ w ∈ ws, w.modPath ≠ m) ∧
    ((∀ p ∈ modInfoMap, p.1 ≠ m → isStableVersion p.2.version = true →
        ∃ reqs, parse ((readFile ((lookupKey p.1 modPathMap).getD "")).getD []) = .ok reqs) →
      ∃ ws, verifyDependencies modInfoMap modPathMap readFile parse = .ok ws) := by
  refine ⟨?_, ?_, ?_⟩
  · apply verifyDependenciesGo_congr
    intro p
    by_cases hp : p = (lookupKey m modPathMap).getD ""
    · subst hp
      rw [hread]
      simp
    · simp [hp]
  · intro ws hws w hw
    exact verifyDependenciesGo_no_warning_for modInfoMap modPathMap readFile parse m
      hread hnil modInfoMap [] (by intro w hw'; cases hw') ws hws w hw
  · intro hothers
    apply verifyDependencies_ok_of_parses
    intro p hp hpst
    by_cases hpm : p.1 = m
    · rw [hpm, hread]
      simp only [Option.getD_none]
      exact ⟨[], hnil⟩
    · exact hothers p hp hpm hpst

/-- Witness for C10: one stable module with an unreadable manifest; the run
equals the run in which that manifest is an empty file. -/
theorem verifyDependencies_read_error_ignored_witness :
    verifyDependencies [("m", ⟨"s1", "v1.0.0"⟩)] [("m", "m/go.mod")]
        (fun _ => none) (fun d => if d.isEmpty then .ok [] else .error "bad") =
      verifyDependencies [("m", ⟨"s1", "v1.0.0"⟩)] [("m", "m/go.mod")]
        (fun p => if p = (lookupKey "m" [("m", "m/go.mod")]).getD "" then some []
          else (fun _ => (none : Option (List Char))) p)
        (fun d => if d.isEmpty then .ok [] else .error "bad") :=
  (verifyDependencies_read_error_ignored [("m", ⟨"s1", "v1.0.0"⟩)] [("m", "m/go.mod")]
    (fun _ => none) (fun d => if d.isEmpty then .ok [] else .error "bad")
    "m" ⟨"s1", "v1.0.0"⟩ (by decide) (by decide) rfl rfl).1



/-- The three checks of the `verify` command, in source order. -/
inductive CheckName
  | allModulesInSet
  | versions
  | dependencies
deriving DecidableEq

/-- `verifyCmd.Run` (`verify.go:48-74`) after the verification struct is
built: the three checks run in order, each wrapped in `log.Fatalf` on
error, and `log.Fatalf` terminates the process at once.  The result records
which checks actually ran and whether the command exits zero. -/
def verifyRun (v : ModuleVersioningInfo) (readFile : String → Option (List Char))
    (parse : List Char → Except String (List Require)) : List CheckName × Bool :=
  match verifyAllModulesInSet v.modPathMap v.modInfoMap with
  | .error _ => ([.allModulesInSet], false)
  | .ok _ =>
    match verifyVersions v.modSetMap with
    | .error _ => ([.allModulesInSet, .versions], false)
    | .ok _ =>
      match verifyDependencies v.modInfoMap v.modPathMap readFile parse with
      | .error _ => ([.allModulesInSet, .versions, .dependencies], false)
      | .ok _ => ([.allModulesInSet, .versions, .dependencies], true)

/-- C4, counterexample: the verify command does not run all three checks
when one fails.  In this configuration the completeness check fails (module
`a` is on disk but in no set) and the version check would also fail (set
`s1` has the invalid version `bad`), yet the run executes only the first
check and reports only its failure, because `log.Fatalf` exits the process
at the first failing check. -/
theorem verifyRun_not_all_checks :
    (verifyRun ⟨[("s1", ⟨"bad", []⟩)], [], [("a", "a/go.mod")]⟩ (fun _ => none)
        (fun _ => .ok []) =
      ([CheckName.allModulesInSet], false)) ∧
    verifyVersions [("s1", ⟨"bad", []⟩)] ≠ .ok () := by
  constructor
  · rfl
  · intro h
    cases h

/-- C4 (amended): the verify command is fail-fast: the completeness check
always runs; the version check runs exactly when the completeness check
passed; the dependency check runs exactly when both earlier checks passed;
and the command exits zero exactly when all three checks pass.  A failure of
an earlier check therefore prevents the later checks from running, and only
the first failure is reported. -/
theorem verifyRun_fail_fast (v : ModuleVersioningInfo)
    (readFile : String → Option (List Char))
    (parse : List Char → Except String (List Require)) :
    (CheckName.allModulesInSet ∈ (verifyRun v readFile parse).1) ∧
    (CheckName.versions ∈ (verifyRun v readFile parse).1 ↔
      verifyAllModulesInSet v.modPathMap v.modInfoMap = .ok ()) ∧
    (CheckName.dependencies ∈ (verifyRun v readFile parse).1 ↔
      (verifyAllModulesInSet v.modPathMap v.modInfoMap = .ok () ∧
        verifyVersions v.modSetMap = .ok ())) ∧
    ((verifyRun v readFile parse).2 = true ↔
      (verifyAllModulesInSet v.modPathMap v.modInfoMap = .ok () ∧
        verifyVersions v.modSetMap = .ok () ∧
        ∃ ws, verifyDependencies v.modInfoMap v.modPathMap readFile parse = .ok ws)) := by
  cases h1 : verifyAllModulesInSet v.modPathMap v.modInfoMap with
  | error e1 => simp [verifyRun, h1]
  | ok u1 =>
    cases u1
    cases h2 : verifyVersions v.modSetMap with
    | error e2 => simp [verifyRun, h1, h2]
    | ok u2 =>
      cases u2
      cases h3 : verifyDependencies v.modInfoMap v.modPathMap readFile parse with
      | error e3 => simp [verifyRun, h1, h2, h3]
      | ok ws => simp [verifyRun, h1, h2, h3]



/-! ## The `prerelease` command (`prerelease.go`) -/

/-- Environment of one `prerelease` invocation: outcomes of the external
`git`/`make` commands it runs. -/
structure PrereleaseEnv where
  tagExists : String → Bool
  treeClean : Bool
  branchCreateOk : Bool
  updateGoModOk : Bool
  makeLintOk : Bool
  gitAddOk : Bool
  makeCiOk : Bool
  gitCommitOk : Bool

/-- The steps of `prereleaseCmd.Run`, in source order. -/
inductive PrereleaseStep
  | verifyTags
  | verifyClean
  | createBranch
  | updateVersionGo
  | updateGoModFiles
  | makeLint
  | commitChanges
deriving DecidableEq

inductive PrereleaseError
  | tagAlreadyExists (tag : String)
  | dirtyTree
  | branchFail
  | goModFail
  | lintFail
  | addFail
  | ciFail
  | commitFail
deriving DecidableEq

/-- `verifyGitTagsDoNotAlreadyExist` (`prerelease.go:159-176`): each full
tag is checked with `git tag -l`; the first one that already exists aborts
with an error. -/
def verifyGitTagsDoNotAlreadyExist (tagExists : String → Bool)
    (modFullTags : List String) : Except PrereleaseError Unit :=
  match modFullTags.find? tagExists with
  | some t => .error (.tagAlreadyExists t)
  | none => .ok ()

/-- `commitChanges` (`prerelease.go:221-258`): `git add .`, then `make ci`
unless skipped, then `git commit`; the first failing command aborts. -/
def commitChanges (env : PrereleaseEnv) (skipMake : Bool) : Except PrereleaseError Unit :=
  if env.gitAddOk = false then .error .addFail
  else if skipMake = false ∧ env.makeCiOk = false then .error .ciFail
  else if env.gitCommitOk = false then .error .commitFail
  else .ok ()

/-- `prereleaseCmd.Run` (`prerelease.go:47-97`) after the prerelease struct
is built: the steps run in a fixed order, each wrapped in `log.Fatalf`,
which terminates the command at the first failure.  Returns the executed
steps in order and the aborting error, if any.  (`updateVersionGo` is
currently a no-op that always succeeds, `prerelease.go:205-207`; `make
lint` is skipped with `--skip-make`.) -/
def prereleaseRun (env : PrereleaseEnv) (skipMake : Bool) (modFullTags : List String) :
    List PrereleaseStep × Option PrereleaseError :=
  match verifyGitTagsDoNotAlreadyExist env.tagExists modFullTags with
  | .error e => ([.verifyTags], some e)
  | .ok _ =>
    if env.treeClean = false then
      ([.verifyTags, .verifyClean], some .dirtyTree)
    else if env.branchCreateOk = false then
      ([.verifyTags, .verifyClean, .createBranch], some .branchFail)
    else if env.updateGoModOk = false then
      ([.verifyTags, .verifyClean, .createBranch, .updateVersionGo, .updateGoModFiles],
        some .goModFail)
    else if skipMake = false ∧ env.makeLintOk = false then
      ([.verifyTags, .verifyClean, .createBranch, .updateVersionGo, .updateGoModFiles,
        .makeLint], some .lintFail)
    else
      let steps := [PrereleaseStep.verifyTags, .verifyClean, .createBranch,
        .updateVersionGo, .updateGoModFiles] ++
        (if skipMake then [] else [PrereleaseStep.makeLint]) ++
        [PrereleaseStep.commitChanges]
      match commitChanges env skipMake with
      | .error e => (steps, some e)
      | .ok _ => (steps, none)

theorem commitChanges_not_dirty (env : PrereleaseEnv) (skipMake : Bool) :
    ∀ e, commitChanges env skipMake = .error e → e ≠ .dirtyTree := by
  intro e h
  unfold commitChanges at h
  split at h
  · injection h with h'
    subst h'
    decide
  · split at h
    · injection h with h'
      subst h'
      decide
    · split at h
      · injection h with h'
        subst h'
        decide
      · cases h

/-- C8: the first three steps of `prerelease` run in the fixed order
tag pre-check, clean-tree check, branch creation: (a) if any target tag
already exists, the run stops at the tag pre-check — before the tree check
and before creating a branch — reporting an existing tag; (b) if no target
tag exists and the tree is dirty, the run stops right after the tree check,
again before creating a branch; (c) a dirty tree is only ever reported when
no target tag already exists; (d) the branch-creation step is reached only
when no target tag exists and the tree is clean, and then the executed
steps begin with exactly the three checks in order. -/
theorem prereleaseRun_check_order (env : PrereleaseEnv) (skipMake : Bool)
    (modFullTags : List String) :
    ((∃ t ∈ modFullTags, env.tagExists t = true) →
      (prereleaseRun env skipMake modFullTags).1 = [.verifyTags] ∧
      ∃ t ∈ modFullTags, env.tagExists t = true ∧
        (prereleaseRun env skipMake modFullTags).2 = some (.tagAlreadyExists t)) ∧
    ((∀ t ∈ modFullTags, env.tagExists t = false) → env.treeClean = false →
      (prereleaseRun env skipMake modFullTags).1 = [.verifyTags, .verifyClean] ∧
      (prereleaseRun env skipMake modFullTags).2 = some .dirtyTree) ∧
    ((prereleaseRun env skipMake modFullTags).2 = some .dirtyTree →
      (∀ t ∈ modFullTags, env.tagExists t = false) ∧ env.treeClean = false) ∧
    (PrereleaseStep.createBranch ∈ (prereleaseRun env skipMake modFullTags).1 →
      (∀ t ∈ modFullTags, env.tagExists t = false) ∧ env.treeClean = true ∧
      (prereleaseRun env skipMake modFullTags).1.take 3 =
        [.verifyTags, .verifyClean, .createBranch]) := by
  cases hfind : modFullTags.find? env.tagExists with
  | some t =>
    have hmem := List.mem_of_find?_eq_some hfind
    have htrue := List.find?_some hfind
    have hrun : prereleaseRun env skipMake modFullTags =
        ([.verifyTags], some (.tagAlreadyExists t)) := by
      simp [prereleaseRun, verifyGitTagsDoNotAlreadyExist, hfind]
    refine ⟨fun _ => ⟨by rw [hrun], t, hmem, htrue, by rw [hrun]⟩, ?_, ?_, ?_⟩
    · intro hall _
      have := hall t hmem
      rw [this] at htrue
      cases htrue
    · intro hd
      rw [hrun] at hd
      cases hd
    · intro hb
      rw [hrun] at hb
      simp at hb
  | none =>
    have hnone : ∀ t ∈ modFullTags, env.tagExists t = false := by
      intro t ht
      have := List.find?_eq_none.mp hfind t ht
      simpa using this
    have hok : verifyGitTagsDoNotAlreadyExist env.tagExists modFullTags = .ok () := by
      simp [verifyGitTagsDoNotAlreadyExist, hfind]
    have hnoex : ¬ ∃ t ∈ modFullTags, env.tagExists t = true := by
      rintro ⟨t, ht, htex⟩
      rw [hnone t ht] at htex
      cases htex
    cases hclean : env.treeClean with
    | false =>
      have hrun : prereleaseRun env skipMake modFullTags =
          ([.verifyTags, .verifyClean], some .dirtyTree) := by
        simp [prereleaseRun, hok, hclean]
      refine ⟨fun hex => absurd hex hnoex, fun _ _ => ⟨by rw [hrun], by rw [hrun]⟩,
        fun _ => ⟨hnone, rfl⟩, fun hb => ?_⟩
      rw [hrun] at hb
      simp at hb
    | true =>
      have hsteps : (prereleaseRun env skipMake modFullTags).1.take 3 =
          [.verifyTags, .verifyClean, .createBranch] ∧
          PrereleaseStep.createBranch ∈ (prereleaseRun env skipMake modFullTags).1 ∧
          (prereleaseRun env skipMake modFullTags).2 ≠ some .dirtyTree := by
        by_cases hbr : env.branchCreateOk = false
        · simp [prereleaseRun, hok, hclean, hbr]
        · by_cases hgm : env.updateGoModOk = false
          · simp [prereleaseRun, hok, hclean, hbr, hgm]
          · cases hskip : skipMake with
            | true =>
              cases hcc : commitChanges env true with
              | error e =>
                have hne := commitChanges_not_dirty env true e hcc
                simp [prereleaseRun, hok, hclean, hbr, hgm, hcc, hne]
              | ok u =>
                cases u
                simp [prereleaseRun, hok, hclean, hbr, hgm, hcc]
            | false =>
              by_cases hml : env.makeLintOk = false
              · simp [prereleaseRun, hok, hclean, hbr, hgm, hml]
              · cases hcc : commitChanges env false with
                | error e =>
                  have hne := commitChanges_not_dirty env false e hcc
                  simp [prereleaseRun, hok, hclean, hbr, hgm, hml, hcc, hne]
                | ok u =>
                  cases u
                  simp [prereleaseRun, hok, hclean, hbr, hgm, hml, hcc]
      refine ⟨fun hex => absurd hex hnoex, fun _ hdirty => ?_,
        fun hd => absurd hd hsteps.2.2, fun _ => ⟨hnone, rfl, hsteps.1⟩⟩
      cases hdirty

/-- Witness for C8: with one pre-existing target tag the run aborts at the
tag pre-check without creating a branch. -/
theorem prereleaseRun_check_order_witness :
    (prereleaseRun ⟨fun t => t = "mod/v1.0.0", true, true, true, true, true, true, true⟩
        false ["mod/v1.0.0"]).1 = [.verifyTags] :=
  ((prereleaseRun_check_order
    ⟨fun t => t = "mod/v1.0.0", true, true, true, true, true, true, true⟩
    false ["mod/v1.0.0"]).1 (by decide)).1



/-! ## The `tag` command (`prerelease.go`, tag part) -/

/-- `deleteTags` (`prerelease.go:453-462`) acting on the repository's set
of tags: each `git tag -d <tag>` removes the named tag.  (Claim C1
quantifies over tag-creation outcomes; the deletion of a tag that was just
created succeeds, and is modelled as removing it from the tag set.) -/
def deleteTags (modFullTags : List String) (tags : List String) : List String :=
  modFullTags.foldl (fun st t => st.erase t) tags

/-- The loop of `tagAllModules` (`prerelease.go:464-492`): tags are created
one at a time with `git tag -a <tag> -s -m ... <commit>`; `created i` is the
outcome of the i-th creation command.  On the first failure all tags added
so far (`addedFullTags`) are deleted and the run fails (the command then
exits non-zero through `log.Fatalf`). -/
def tagAllModulesGo (created : Nat → Bool) :
    Nat → List String → List String → List String → List String × Bool
  | _, _, [], st => (st, true)
  | i, added, t :: rest, st =>
    if created i then tagAllModulesGo created (i + 1) (added ++ [t]) rest (st ++ [t])
    else (deleteTags added st, false)

/-- `tagAllModules` (`prerelease.go:464-492`): returns the final tag set of
the repository and whether the run succeeded. -/
def tagAllModules (created : Nat → Bool) (modFullTags : List String)
    (tags : List String) : List String × Bool :=
  tagAllModulesGo created 0 [] modFullTags tags

theorem deleteTags_of_appended (st0 : List String) :
    ∀ added : List String, added.Nodup → (∀ t ∈ added, t ∉ st0) →
      deleteTags added (st0 ++ added) = st0 := by
  intro added
  induction added generalizing st0 with
  | nil => intro _ _; simp [deleteTags]
  | cons a rest ih =>
    intro hnd hdis
    simp only [List.nodup_cons] at hnd
    have ha : a ∉ st0 := hdis a (List.mem_cons_self _ _)
    have hstep : (st0 ++ a :: rest).erase a = st0 ++ rest := by
      rw [List.erase_append_right _ ha, List.erase_cons_head]
    show List.foldl (fun st t => st.erase t) ((st0 ++ a :: rest).erase a) rest = st0
    rw [hstep]
    exact ih st0 hnd.2 fun t ht => hdis t (List.mem_cons_of_mem _ ht)

theorem tagAllModulesGo_spec (created : Nat → Bool) (st0 : List String) :
    ∀ (remaining : List String) (i : Nat) (added : List String),
      added.Nodup → (∀ t ∈ added, t ∉ st0) →
      (∀ t ∈ remaining, t ∉ st0) → (∀ t ∈ remaining, t ∉ added) → remaining.Nodup →
      (((tagAllModulesGo created i added remaining (st0 ++ added)).2 = true →
        (tagAllModulesGo created i added remaining (st0 ++ added)).1 =
          st0 ++ added ++ remaining) ∧
      ((tagAllModulesGo created i added remaining (st0 ++ added)).2 = false →
        (tagAllModulesGo created i added remaining (st0 ++ added)).1 = st0) ∧
      ((tagAllModulesGo created i added remaining (st0 ++ added)).2 = true ↔
        ∀ k < remaining.length, created (i + k) = true)) := by
  intro remaining
  induction remaining with
  | nil =>
    intro i added _ _ _ _ _
    refine ⟨?_, ?_, ?_⟩
    · intro _
      simp [tagAllModulesGo]
    · intro h
      simp [tagAllModulesGo] at h
    · simp [tagAllModulesGo]
  | cons t rest ih =>
    intro i added hand hadis hrdis hra hrnd
    simp only [List.nodup_cons] at hrnd
    have ht0 : t ∉ st0 := hrdis t (List.mem_cons_self _ _)
    have hta : t ∉ added := hra t (List.mem_cons_self _ _)
    cases hc : created i with
    | true =>
      have hstep : tagAllModulesGo created i added (t :: rest) (st0 ++ added) =
          tagAllModulesGo created (i + 1) (added ++ [t]) rest (st0 ++ (added ++ [t])) := by
        simp [tagAllModulesGo, hc, List.append_assoc]
      have hnd' : (added ++ [t]).Nodup := by
        simp [List.nodup_append, hand, hta]
      have hdis' : ∀ u ∈ added ++ [t], u ∉ st0 := by
        intro u hu
        rcases List.mem_append.mp hu with hu | hu
        · exact hadis u hu
        · simp only [List.mem_singleton] at hu
          subst hu
          exact ht0
      have hrdis' : ∀ u ∈ rest, u ∉ st0 := fun u hu => hrdis u (List.mem_cons_of_mem _ hu)
      have hra' : ∀ u ∈ rest, u ∉ added ++ [t] := by
        intro u hu hmem
        rcases List.mem_append.mp hmem with hin | hin
        · exact hra u (List.mem_cons_of_mem _ hu) hin
        · simp only [List.mem_singleton] at hin
          subst hin
          exact hrnd.1 hu
      have hrec := ih (i + 1) (added ++ [t]) hnd' hdis' hrdis' hra' hrnd.2
      rw [hstep]
      refine ⟨fun hs => ?_, hrec.2.1, ?_⟩
      · rw [hrec.1 hs]
        simp
      · rw [hrec.2.2]
        constructor
        · intro hall k hk
          cases k with
          | zero => simpa using hc
          | succ k' =>
            have : k' < rest.length := by
              simp only [List.length_cons] at hk
              omega
            have := hall k' this
            have he : i + 1 + k' = i + (k' + 1) := by omega
            rwa [he] at this
        · intro hall k hk
          have : k + 1 < (t :: rest).length := by
            simp only [List.length_cons]
            omega
          have := hall (k + 1) this
          have he : i + (k + 1) = i + 1 + k := by omega
          rwa [he] at this
    | false =>
      have hstep : tagAllModulesGo created i added (t :: rest) (st0 ++ added) =
          (deleteTags added (st0 ++ added), false) := by
        simp [tagAllModulesGo, hc]
      rw [hstep]
      refine ⟨?_, ?_, ?_⟩
      · intro hs
        cases hs
      · intro _
        exact deleteTags_of_appended st0 added hand hadis
      constructor
      · intro hs
        cases hs
      · intro hall
        have : (0 : Nat) < (t :: rest).length := by simp
        have := hall 0 this
        rw [Nat.add_zero, hc] at this
        cases this

/-- C1: `tagAllModules` is all-or-nothing over the set's tag list.  For
fresh, pairwise-distinct target tags and any sequence of per-tag creation
outcomes: if the run fails (it then exits non-zero), every tag created
earlier in the invocation has been deleted again and the repository's tag
set is exactly what it was before; if the run succeeds, exactly all the
new tags have been added; and the run fails precisely when some creation
in range fails. -/
theorem tagAllModules_all_or_nothing (created : Nat → Bool)
    (modFullTags tags : List String) (hnd : modFullTags.Nodup)
    (hnew : ∀ t ∈ modFullTags, t ∉ tags) :
    ((tagAllModules created modFullTags tags).2 = false →
      (tagAllModules created modFullTags tags).1 = tags) ∧
    ((tagAllModules created modFullTags tags).2 = true →
      (tagAllModules created modFullTags tags).1 = tags ++ modFullTags) ∧
    ((tagAllModules created modFullTags tags).2 = false ↔
      ∃ k, k < modFullTags.length ∧ created k = false) := by
  have hbase : tags = tags ++ ([] : List String) := by simp
  have hspec := tagAllModulesGo_spec created tags modFullTags 0 []
    (by simp) (by simp) hnew (by simp) hnd
  rw [← hbase] at hspec
  unfold tagAllModules
  refine ⟨hspec.2.1, fun hs => hspec.1 hs, ?_⟩
  have hiff := hspec.2.2
  constructor
  · intro hf
    by_contra hno
    push_neg at hno
    have : ∀ k < modFullTags.length, created (0 + k) = true := by
      intro k hk
      have := hno k hk
      rw [Nat.zero_add]
      cases hck : created k with
      | false => exact absurd hck this
      | true => rfl
    have := hiff.mpr this
    rw [hf] at this
    cases this
  · rintro ⟨k, hk, hck⟩ 
    cases hres : (tagAllModulesGo created 0 [] modFullTags tags).2 with
    | false => rfl
    | true =>
      have := hiff.mp hres k hk
      rw [Nat.zero_add] at this
      rw [hck] at this
      cases this

/-- Witness for C1: three fresh tags with the second creation failing; the
final tag set equals the initial one. -/
theorem tagAllModules_all_or_nothing_witness :
    (tagAllModules (fun i => decide (i ≠ 1)) ["t1", "t2", "t3"] ["old"]).1 = ["old"] :=
  (tagAllModules_all_or_nothing (fun i => decide (i ≠ 1)) ["t1", "t2", "t3"] ["old"]
    (by decide) (by decide)).1 (by decide)

/-- `getFullCommitHash` (`prerelease.go:416-439`): `git rev-parse --quiet
--verify <hash>` resolves the reference (it fails for an empty or unknown
one), then `git merge-base <sha> HEAD` must print the sha itself, otherwise
the commit is not on the branch or not its tip.  `revParse` and `mergeBase`
model the two git queries. -/
def getFullCommitHash (revParse : String → Option String)
    (mergeBase : String → Option String) (hash : String) : Except String String :=
  match revParse hash with
  | none => .error ("could not retrieve commit hash " ++ hash)
  | some sha =>
    match mergeBase sha with
    | none => .error ("command git merge-base failed")
    | some mb =>
      if mb = sha then .ok sha
      else .error ("commit " ++ hash ++ " not found on this branch or not the most recent commit")

/-- `newTagger` (`prerelease.go:399-414`): after building the prerelease
data it unconditionally resolves the commit hash — also when the command
will only delete tags. -/
def newTagger (revParse mergeBase : String → Option String) (hash : String) :
    Except String String :=
  getFullCommitHash revParse mergeBase hash

/-- The observable outcome of `tagCmd.Run`: the repository's final tag set
and whether the command exited fatally. -/
structure TagCmdResult where
  tags : List String
  fatal : Bool
deriving DecidableEq

/-- `tagCmd.Run` (`prerelease.go:348-375`): builds the tagger — which
resolves the commit hash — and only then branches on
`--delete-module-set-tags`, deleting the set's full tags
(`deleteModuleSetTags`, `prerelease.go:441-449`) or creating them all
(`tagAllModules`). -/
def tagCmdRun (deleteModuleSetTags : Bool)
    (revParse mergeBase : String → Option String) (commitHash : String)
    (created : Nat → Bool) (modFullTags : List String) (tags : List String) :
    TagCmdResult :=
  match newTagger revParse mergeBase commitHash with
  | .error _ => ⟨tags, true⟩
  | .ok _ =>
    if deleteModuleSetTags then ⟨deleteTags modFullTags tags, false⟩
    else
      let r := tagAllModules created modFullTags tags
      ⟨r.1, !r.2⟩

/-- C9: delete mode does depend on the commit hash.  `newTagger` calls
`getFullCommitHash` before the delete branch is examined, so `tag
--delete-module-set-tags` with no (or an unresolvable) commit hash — `git
rev-parse --quiet --verify ""` fails — aborts fatally before deleting any
tag, even though the command's own `PreRun` hook drops the required-flag
annotation precisely so that delete mode can run without `--commit-hash`.
Evaluated at the failing input (delete mode, empty hash, tag
`mod/v1.0.0` present): the run is fatal and the tag survives; the same
invocation with a resolvable hash deletes the tag. -/
theorem tagCmdRun_delete_needs_commit :
    (tagCmdRun true (fun h => if h = "" then none else some h) (fun sha => some sha) ""
        (fun _ => true) ["mod/v1.0.0"] ["mod/v1.0.0"] =
      ⟨["mod/v1.0.0"], true⟩) ∧
    (tagCmdRun true (fun h => if h = "" then none else some h) (fun sha => some sha) "abc"
        (fun _ => true) ["mod/v1.0.0"] ["mod/v1.0.0"] =
      ⟨[], false⟩) := by
  constructor
  · rfl
  · rfl


end Releasing
